import Mathlib

/-!
Verification of the SpectraDigitizer core pipeline.

Shallow embedding of `src/lib/calibration.ts`, `src/lib/detect.ts` and
`src/lib/curve.ts`.  JavaScript numbers are modelled as exact rationals;
machine byte data is modelled as natural numbers.  The only place the
source leaves exact rational arithmetic is `Math.hypot` inside
`normalize`/`distRgb`; both uses are eliminated algebraically (the
normalizing factor cancels from the calibration mapper, and comparisons
of a norm against a bound become comparisons of the squared norm against
the squared bound), as documented at each definition.
-/

namespace SpectraDigitizer

/-- Pixel-space point, `Point {x, y}` from `src/types`. -/
structure Pt where
  x : ℚ
  y : ℚ
deriving DecidableEq, Repr

/-- The `dot` helper of calibration.ts: `a.x * b.x + a.y * b.y`. -/
def dot (a b : Pt) : ℚ := a.x * b.x + a.y * b.y

/-- The `sub` helper of calibration.ts: componentwise difference. -/
def sub (a b : Pt) : Pt := ⟨a.x - b.x, a.y - b.y⟩

/-- Squared Euclidean norm of a point, i.e. `dot a a`.  The source computes
the norm itself with `Math.hypot`; every comparison and quotient the source
builds from that norm is re-expressed through its square (see
`buildPixelToDataMapper`). -/
def normSq (a : Pt) : ℚ := a.x * a.x + a.y * a.y

/-- The squared degeneracy bound: the source compares the projected span
against `1e-6`, we compare the squared span against `(1e-6)^2 = 1e-12`. -/
def eps2 : ℚ := 1 / 10 ^ 12

/-- Dividing both components of the right `dot` argument by `n` divides the
dot product by `n` — the bridge fact used to eliminate `normalize`. -/
theorem dot_div_right (w d : Pt) (n : ℚ) :
    dot w ⟨d.x / n, d.y / n⟩ = dot w d / n := by
  unfold dot
  field_simp

/-- The normalizing factor cancels from the mapper arithmetic:
`(v / (s / n)) * (q / n) = v * q / s` for any nonzero `n`.  With
`n = ‖d‖`, `s = dot d d = normSq d` and `q = dot w d` this turns the
source's `sx * dot (p - pxA) vx` (where `vx = d / n` and
`sx = v / dot d vx`) into `v * dot (p - pxA) d / normSq d`. -/
theorem normalize_factor_cancel (v q s n : ℚ) (hn : n ≠ 0) :
    v / (s / n) * (q / n) = v * q / s := by
  rcases eq_or_ne s 0 with hs | hs
  · simp [hs]
  · field_simp
    ring

/-- `buildPixelToDataMapper` from calibration.ts.

The source computes, per axis, `v = normalize d` (with `d = pxB - pxA`),
`denom = dot d v` and `s = (valB - valA) / denom`, throwing when
`|denomX| < 1e-6 ∨ |denomY| < 1e-6`, and otherwise returns
`p ↦ valA + s * dot (p - pxA) v`.

Writing `n = ‖d‖ = Math.hypot d.x d.y`:
* if `n ≥ 1e-9` then `v = d / n`, so `denom = dot d d / n = n` and the
  throw test `|denom| < 1e-6` is `n < 1e-6`, i.e. `normSq d < 1e-12`;
* if `n < 1e-9` the source falls back to `v = (1, 0)`, so `denom = d.x`
  with `|d.x| ≤ n < 1e-9 < 1e-6`, and `normSq d ≤ n^2 < 1e-18 < 1e-12` —
  the throw fires on both readings.
Hence throwing is exactly `normSq d < eps2` per axis.  In the non-throw
case `n ≥ 1e-9 > 0`, and by `dot_div_right` and `normalize_factor_cancel`
the returned value `valA + (v' / (normSq d / n)) * (dot (p - pxA) d / n)`
equals `valA + v' * dot (p - pxA) d / normSq d`, which is the exact
rational form embedded here.  The thrown `Error` is modelled as `none`. -/
def buildPixelToDataMapper (pxX1 pxX2 pxY1 pxY2 : Pt) (x1 x2 y1 y2 : ℚ) :
    Option (Pt → ℚ × ℚ) :=
  let dx := sub pxX2 pxX1
  let dy := sub pxY2 pxY1
  if normSq dx < eps2 ∨ normSq dy < eps2 then
    none
  else
    some fun p =>
      (x1 + (x2 - x1) * dot (sub p pxX1) dx / normSq dx,
       y1 + (y2 - y1) * dot (sub p pxY1) dy / normSq dy)

/-- C1: calibration round-trip on the spec's concrete instance.
`buildPixelToDataMapper` with `pxX1 = (0,100)`, `pxX2 = (100,100)`,
`x1 = 0`, `x2 = 10`, `pxY1 = (0,100)`, `pxY2 = (0,0)`, `y1 = 0`, `y2 = 1`
succeeds, and the returned mapper sends the point `(50, 50)` to exactly
`X = 5` and `Y = 0.5`. -/
theorem calibration_roundtrip :
    ∃ m, buildPixelToDataMapper ⟨0, 100⟩ ⟨100, 100⟩ ⟨0, 100⟩ ⟨0, 0⟩ 0 10 0 1 = some m ∧
      m ⟨50, 50⟩ = (5, 1 / 2) := by
  have h : ¬(normSq (sub (⟨100, 100⟩ : Pt) ⟨0, 100⟩) < eps2 ∨
      normSq (sub (⟨0, 0⟩ : Pt) ⟨0, 100⟩) < eps2) := by
    norm_num [normSq, sub, eps2]
  simp only [buildPixelToDataMapper, if_neg h]
  refine ⟨_, rfl, ?_⟩
  norm_num [dot, sub, normSq, Prod.ext_iff]

/-- C2: `buildPixelToDataMapper` returns no mapper exactly when at least one
axis's two pixel calibration points project to a span of absolute value
below `1e-6` along that axis's own normalized direction (equivalently: the
squared pixel difference is below `1e-12`, see `buildPixelToDataMapper`);
in particular it fails whenever `pxX1 = pxX2`, and when neither axis is
degenerate a mapper is returned. -/
theorem build_mapper_degenerate_iff (pxX1 pxX2 pxY1 pxY2 : Pt) (x1 x2 y1 y2 : ℚ) :
    (buildPixelToDataMapper pxX1 pxX2 pxY1 pxY2 x1 x2 y1 y2 = none ↔
      normSq (sub pxX2 pxX1) < eps2 ∨ normSq (sub pxY2 pxY1) < eps2) ∧
    (pxX1 = pxX2 → buildPixelToDataMapper pxX1 pxX2 pxY1 pxY2 x1 x2 y1 y2 = none) ∧
    (¬(normSq (sub pxX2 pxX1) < eps2 ∨ normSq (sub pxY2 pxY1) < eps2) →
      ∃ m, buildPixelToDataMapper pxX1 pxX2 pxY1 pxY2 x1 x2 y1 y2 = some m) := by
  by_cases hc : normSq (sub pxX2 pxX1) < eps2 ∨ normSq (sub pxY2 pxY1) < eps2
  · refine ⟨by simp [buildPixelToDataMapper, if_pos hc, hc], fun _ => ?_, fun hn => absurd hc hn⟩
    simp [buildPixelToDataMapper, if_pos hc]
  · refine ⟨by simp [buildPixelToDataMapper, if_neg hc, hc], ?_, ?_⟩
    · intro h
      exfalso
      apply hc
      left
      subst h
      have hz : sub pxX1 pxX1 = (⟨0, 0⟩ : Pt) := by simp [sub]
      rw [hz]
      norm_num [normSq, eps2]
    · intro _
      refine ⟨fun p =>
        (x1 + (x2 - x1) * dot (sub p pxX1) (sub pxX2 pxX1) / normSq (sub pxX2 pxX1),
         y1 + (y2 - y1) * dot (sub p pxY1) (sub pxY2 pxY1) / normSq (sub pxY2 pxY1)), ?_⟩
      simp only [buildPixelToDataMapper, if_neg hc]

/-- Witness for `build_mapper_degenerate_iff` at concrete inputs: equal
X-calibration points make the build fail, and the (nondegenerate) C1
configuration makes it succeed. -/
theorem build_mapper_degenerate_iff_witness :
    ((⟨0, 100⟩ : Pt) = ⟨0, 100⟩ ∧
      buildPixelToDataMapper ⟨0, 100⟩ ⟨0, 100⟩ ⟨0, 100⟩ ⟨0, 0⟩ 0 10 0 1 = none) ∧
    (¬(normSq (sub (⟨100, 100⟩ : Pt) ⟨0, 100⟩) < eps2 ∨
        normSq (sub (⟨0, 0⟩ : Pt) ⟨0, 100⟩) < eps2) ∧
      ∃ m, buildPixelToDataMapper ⟨0, 100⟩ ⟨100, 100⟩ ⟨0, 100⟩ ⟨0, 0⟩ 0 10 0 1 = some m) := by
  have hnd : ¬(normSq (sub (⟨100, 100⟩ : Pt) ⟨0, 100⟩) < eps2 ∨
      normSq (sub (⟨0, 0⟩ : Pt) ⟨0, 100⟩) < eps2) := by
    norm_num [normSq, sub, eps2]
  constructor
  · exact ⟨rfl, (build_mapper_degenerate_iff ⟨0, 100⟩ ⟨0, 100⟩ ⟨0, 100⟩ ⟨0, 0⟩ 0 10 0 1).2.1 rfl⟩
  · exact ⟨hnd, (build_mapper_degenerate_iff ⟨0, 100⟩ ⟨100, 100⟩ ⟨0, 100⟩ ⟨0, 0⟩ 0 10 0 1).2.2 hnd⟩

/-- Rectangle `Rect {x, y, w, h}` from `src/types`. -/
structure Rect where
  x : ℚ
  y : ℚ
  w : ℚ
  h : ℚ
deriving DecidableEq, Repr

/-- `clampRect` from detect.ts. -/
def clampRect (r : Rect) (w h : ℚ) : Rect :=
  let x := max 0 (min (w - 1) r.x)
  let y := max 0 (min (h - 1) r.y)
  let rw := max 1 (min (w - x) r.w)
  let rh := max 1 (min (h - y) r.h)
  ⟨x, y, rw, rh⟩

/-- C4 counterexample: with bounds `W = H = 0` the clamped rect still has
width ≥ 1, so `x + w ≤ W` fails — the claimed bounds do not hold for every
bounds pair. -/
theorem clampRect_zero_bounds_counterexample :
    ¬(0 ≤ (clampRect ⟨0, 0, 1, 1⟩ 0 0).x ∧ 0 ≤ (clampRect ⟨0, 0, 1, 1⟩ 0 0).y ∧
      (clampRect ⟨0, 0, 1, 1⟩ 0 0).x + (clampRect ⟨0, 0, 1, 1⟩ 0 0).w ≤ 0 ∧
      (clampRect ⟨0, 0, 1, 1⟩ 0 0).y + (clampRect ⟨0, 0, 1, 1⟩ 0 0).h ≤ 0 ∧
      1 ≤ (clampRect ⟨0, 0, 1, 1⟩ 0 0).w ∧ 1 ≤ (clampRect ⟨0, 0, 1, 1⟩ 0 0).h) := by
  norm_num [clampRect, max_def, min_def]

/-- C4 (amended): for every rect `R` and every bounds pair `W × H` with
`W ≥ 1` and `H ≥ 1` (nonempty pixel buffers), the clamped rect satisfies
`0 ≤ x`, `0 ≤ y`, `x + w ≤ W`, `y + h ≤ H`, `w ≥ 1` and `h ≥ 1`. -/
theorem clampRect_bounds (r : Rect) (w h : ℚ) (hw : 1 ≤ w) (hh : 1 ≤ h) :
    0 ≤ (clampRect r w h).x ∧ 0 ≤ (clampRect r w h).y ∧
    (clampRect r w h).x + (clampRect r w h).w ≤ w ∧
    (clampRect r w h).y + (clampRect r w h).h ≤ h ∧
    1 ≤ (clampRect r w h).w ∧ 1 ≤ (clampRect r w h).h := by
  obtain ⟨rx, ry, rw0, rh0⟩ := r
  simp only [clampRect]
  have hx0 : (0 : ℚ) ≤ max 0 (min (w - 1) rx) := le_max_left 0 _
  have hy0 : (0 : ℚ) ≤ max 0 (min (h - 1) ry) := le_max_left 0 _
  have hx1 : max 0 (min (w - 1) rx) ≤ w - 1 :=
    max_le (by linarith) (min_le_left _ _)
  have hy1 : max 0 (min (h - 1) ry) ≤ h - 1 :=
    max_le (by linarith) (min_le_left _ _)
  have hwle : max 1 (min (w - max 0 (min (w - 1) rx)) rw0) ≤ w - max 0 (min (w - 1) rx) :=
    max_le (by linarith) (min_le_left _ _)
  have hhle : max 1 (min (h - max 0 (min (h - 1) ry)) rh0) ≤ h - max 0 (min (h - 1) ry) :=
    max_le (by linarith) (min_le_left _ _)
  refine ⟨hx0, hy0, by linarith, by linarith, le_max_left 1 _, le_max_left 1 _⟩

/-- Witness for `clampRect_bounds`: concrete rect `(-5, -5, 100, 100)`
clamped into a 10 × 10 buffer. -/
theorem clampRect_bounds_witness :
    (1 : ℚ) ≤ 10 ∧
    (0 ≤ (clampRect ⟨-5, -5, 100, 100⟩ 10 10).x ∧
      0 ≤ (clampRect ⟨-5, -5, 100, 100⟩ 10 10).y ∧
      (clampRect ⟨-5, -5, 100, 100⟩ 10 10).x + (clampRect ⟨-5, -5, 100, 100⟩ 10 10).w ≤ 10 ∧
      (clampRect ⟨-5, -5, 100, 100⟩ 10 10).y + (clampRect ⟨-5, -5, 100, 100⟩ 10 10).h ≤ 10 ∧
      1 ≤ (clampRect ⟨-5, -5, 100, 100⟩ 10 10).w ∧
      1 ≤ (clampRect ⟨-5, -5, 100, 100⟩ 10 10).h) :=
  ⟨by norm_num, clampRect_bounds ⟨-5, -5, 100, 100⟩ 10 10 (by norm_num) (by norm_num)⟩

/-- `grayAt` from detect.ts: `(r * 0.299 + g * 0.587 + b * 0.114) | 0`.
The coefficients are the exact decimals `299/1000`, `587/1000`, `114/1000`,
and `| 0` truncates toward zero, which on the nonnegative weighted sum is
the floor — embedded as natural-number division of the common-denominator
form. -/
def grayRGB (r g b : ℕ) : ℕ := (r * 299 + g * 587 + b * 114) / 1000

/-- The spec's weighted luminance `0.299·R + 0.587·G + 0.114·B` as an exact
rational, used to compare `grayRGB` against the spec's `round`. -/
def lum (r g b : ℕ) : ℚ := (r : ℚ) * 0.299 + (g : ℚ) * 0.587 + (b : ℚ) * 0.114

/-- C3 counterexample: at the byte triple `(0, 1, 0)` the code's gray value
is `0` while the spec's `round(0.299·R + 0.587·G + 0.114·B)` is
`round 0.587 = 1` — the code truncates, it does not round to nearest. -/
theorem gray_not_round_counterexample :
    (grayRGB 0 1 0 : ℤ) ≠ round (lum 0 1 0) ∧
    grayRGB 0 1 0 = 0 ∧ round (lum 0 1 0) = 1 := by
  have h1 : round (lum 0 1 0) = 1 := by
    unfold lum
    rw [round_eq]
    norm_num
  have h0 : grayRGB 0 1 0 = 0 := by decide
  refine ⟨?_, h0, h1⟩
  rw [h1, h0]
  decide

/-- C3 (amended): for every triple `(R, G, B)` of naturals (in particular
every byte triple in `[0,255]^3`) the gray value used for binarization is
the floor — not the nearest-integer rounding — of the weighted luminance
`0.299·R + 0.587·G + 0.114·B`. -/
theorem gray_eq_floor_luminance (r g b : ℕ) :
    grayRGB r g b = ⌊lum r g b⌋₊ := by
  have h : lum r g b = ((r * 299 + g * 587 + b * 114 : ℕ) : ℚ) / ((1000 : ℕ) : ℚ) := by
    unfold lum
    rw [show (0.299 : ℚ) = 299 / 1000 by norm_num,
      show (0.587 : ℚ) = 587 / 1000 by norm_num,
      show (0.114 : ℚ) = 114 / 1000 by norm_num]
    push_cast
    ring
  rw [h, Nat.floor_div_nat, Nat.floor_natCast]
  rfl

/-- The accumulator loop of `cluster1D` from detect.ts: walks the sorted
values carrying the previous value, the running sum and count of the open
cluster, and the emitted means.  (The source also assigns a variable
`start` that is never read; it is omitted.) -/
def cluster1DGo (mergeDist : ℚ) : List ℚ → ℚ → ℚ → ℕ → List ℚ → List ℚ
  | [], _prev, sum, cnt, out => out ++ [sum / (cnt : ℚ)]
  | v :: vs, prev, sum, cnt, out =>
    if v - prev ≤ mergeDist then cluster1DGo mergeDist vs v (sum + v) (cnt + 1) out
    else cluster1DGo mergeDist vs v v 1 (out ++ [sum / (cnt : ℚ)])

/-- `cluster1D` from detect.ts: sort ascending (JavaScript `sort` with the
comparator `a - b` is a stable ascending sort, modelled by `mergeSort`),
then merge adjacent values whose gap is at most `mergeDist` and emit each
cluster's mean. -/
def cluster1D (values : List ℚ) (mergeDist : ℚ) : List ℚ :=
  match values.mergeSort (fun a b => a ≤ b) with
  | [] => []
  | v0 :: rest => cluster1DGo mergeDist rest v0 v0 1 []

/-- C7: 1-D clustering of `[10, 11, 13, 50, 51]` with merge distance `4`
returns exactly the two cluster means `(10 + 11 + 13)/3 = 34/3` and
`(50 + 51)/2 = 101/2`, in that order. -/
theorem cluster1D_example :
    cluster1D [10, 11, 13, 50, 51] 4 = [34 / 3, 101 / 2] := by
  have hs : List.mergeSort [(10 : ℚ), 11, 13, 50, 51] (fun a b => a ≤ b) =
      [10, 11, 13, 50, 51] :=
    List.mergeSort_of_sorted (by norm_num [List.pairwise_cons])
  unfold cluster1D
  rw [hs]
  norm_num [cluster1DGo]

/-- An `ImageData` pixel buffer: `width`, `height` and the RGBA byte array
`data`, modelled as a function from (integer) indices to bytes.  A channel
of pixel `(x, y)` lives at index `(y * width + x) * 4 + channel`. -/
structure Img where
  width : ℕ
  height : ℕ
  data : ℤ → ℕ

/-- `grayAt(data, idx)` from detect.ts, at the base index of a pixel. -/
def grayAtIdx (data : ℤ → ℕ) (idx : ℤ) : ℕ :=
  grayRGB (data idx) (data (idx + 1)) (data (idx + 2))

/-- Gray value of the pixel at `(x, y)`: `grayAt` applied at index
`(y * width + x) * 4`. -/
def grayPix (img : Img) (x y : ℤ) : ℕ :=
  grayAtIdx img.data ((y * img.width + x) * 4)

/-- JavaScript `| 0`: truncation toward zero, i.e. `Int.tdiv` of numerator
by denominator (`tdiv` rounds toward zero, unlike `/` on `ℤ`). -/
def truncQ (q : ℚ) : ℤ := q.num.tdiv q.den

/-- The integers `a, a+1, …, b-1` (empty when `b ≤ a`), the index list of a
`for (i = a; i < b; i++)` loop. -/
def intRange (a b : ℤ) : List ℤ :=
  (List.range (b - a).toNat).map fun k => a + k

/-- The pixel coordinates visited by the double loop of
`otsuThresholdFromRect`: rows `y0 ≤ y < y1` outer, columns `x0 ≤ x < x1`
inner, with the rect corners truncated by `| 0`. -/
def rectPixels (rect : Rect) : List (ℤ × ℤ) :=
  let x0 := truncQ rect.x
  let y0 := truncQ rect.y
  let x1 := truncQ (rect.x + rect.w)
  let y1 := truncQ (rect.y + rect.h)
  (intRange y0 y1).flatMap fun y => (intRange x0 x1).map fun x => (x, y)

/-- Scan state of the Otsu loop in `otsuThresholdFromRect`: running
background weight `wB`, running background sum `sumB`, the best variance
`varMax` (initialized to `-1`), the chosen `threshold` (initialized to
`128`), and `done` modelling the `break` on an empty foreground class. -/
structure OtsuState where
  wB : ℚ
  sumB : ℚ
  varMax : ℚ
  threshold : ℕ
  done : Bool
deriving Repr, DecidableEq

/-- Initial Otsu scan state: `sumB = 0`, `wB = 0`, `varMax = -1`,
`threshold = 128`. -/
def otsuStart : OtsuState := ⟨0, 0, -1, 128, false⟩

/-- One iteration `t` of the Otsu scan loop (detect.ts lines 43–61):
`wB += hist[t]`; `continue` when `wB == 0`; `break` when `wF == 0`
(modelled by the `done` flag); otherwise update `sumB`, compute the class
means and the inter-class variance, and take `t` as the new threshold when
it strictly exceeds `varMax`. -/
def otsuStep (total sum : ℚ) (hist : ℕ → ℕ) (s : OtsuState) (t : ℕ) : OtsuState :=
  if s.done then s
  else
    let wB := s.wB + (hist t : ℚ)
    if wB = 0 then ⟨wB, s.sumB, s.varMax, s.threshold, s.done⟩
    else
      let wF := total - wB
      if wF = 0 then ⟨wB, s.sumB, s.varMax, s.threshold, true⟩
      else
        let sumB := s.sumB + (t : ℚ) * (hist t : ℚ)
        let mB := sumB / wB
        let mF := (sum - sumB) / wF
        let varBetween := wB * wF * (mB - mF) * (mB - mF)
        if s.varMax < varBetween then ⟨wB, sumB, varBetween, t, s.done⟩
        else ⟨wB, sumB, s.varMax, s.threshold, s.done⟩

/-- The Otsu threshold-selection scan over candidate thresholds `0 … 255`,
given the histogram, the pixel count `total` and the weighted sum
`sum = Σ t · hist t`. -/
def otsuScanHist (hist : ℕ → ℕ) (total sum : ℚ) : ℕ :=
  ((List.range 256).foldl (otsuStep total sum hist) otsuStart).threshold

/-- Total count of a 256-bin histogram (the `total` accumulated by the
pixel loop equals this sum for the histogram that loop builds). -/
def histTotalQ (hist : ℕ → ℕ) : ℚ :=
  ((List.range 256).map fun t => (hist t : ℚ)).sum

/-- The weighted sum `Σ t · hist t` over bins `0 … 255` (detect.ts line 38). -/
def histSumQ (hist : ℕ → ℕ) : ℚ :=
  ((List.range 256).map fun t : ℕ => (t : ℚ) * (hist t : ℚ)).sum

/-- The Otsu threshold selection as a function of a histogram alone, with
`total` and `sum` derived from the histogram. -/
def otsuFromHist (hist : ℕ → ℕ) : ℕ :=
  otsuScanHist hist (histTotalQ hist) (histSumQ hist)

/-- `otsuThresholdFromRect` from detect.ts: build the 256-bin gray histogram
of the rect's pixels (the loop's increments make bin `t` the count of rect
pixels with gray `t`, and `total` the number of loop iterations), return
the default `128` on an empty rect, otherwise run the scan. -/
def otsuThresholdFromRect (img : Img) (rect : Rect) : ℕ :=
  let pix := rectPixels rect
  let hist : ℕ → ℕ := fun t => pix.countP fun p => decide (grayPix img p.1 p.2 = t)
  if pix.length ≤ 0 then 128
  else otsuScanHist hist (pix.length : ℚ) (histSumQ hist)

/-- The record returned by `buildInkFn` from detect.ts: the Otsu threshold
of the given rect and the ink predicate `gray(x, y) < th`. -/
structure InkFn where
  th : ℕ
  isInk : ℤ → ℤ → Bool

/-- `buildInkFn` from detect.ts. -/
def buildInkFn (img : Img) (rectForThresh : Rect) : InkFn :=
  let th := otsuThresholdFromRect img rectForThresh
  ⟨th, fun x y => decide (grayPix img x y < th)⟩

/-- Simulation relation between the Otsu scan on a histogram and on the
same histogram with all bins scaled by `k`: weights and sums scale by `k`,
the best variance by `k²` (once it has left its `-1` initial value), and
the control state (`done`, `threshold`) agrees. -/
def OtsuRel (k : ℚ) (s s' : OtsuState) : Prop :=
  s'.done = s.done ∧ s'.threshold = s.threshold ∧
  s'.wB = k * s.wB ∧ s'.sumB = k * s.sumB ∧
  ((s.varMax = -1 ∧ s'.varMax = -1) ∨ (0 ≤ s.varMax ∧ s'.varMax = k ^ 2 * s.varMax))

/-- The inter-class variance `wB · wF · (mB − mF)²` computed in the update
branch of the Otsu loop, as a function of the updated `wB` and `sumB`. -/
def otsuVar (total sum wB sumB : ℚ) : ℚ :=
  wB * (total - wB) * (sumB / wB - (sum - sumB) / (total - wB)) *
    (sumB / wB - (sum - sumB) / (total - wB))

theorem otsuStep_eq_done (total sum : ℚ) (hist : ℕ → ℕ) (s : OtsuState) (t : ℕ)
    (h : s.done = true) : otsuStep total sum hist s t = s := by
  simp [otsuStep, h]

theorem otsuStep_eq_continue (total sum : ℚ) (hist : ℕ → ℕ) (s : OtsuState) (t : ℕ)
    (h : s.done = false) (hz : s.wB + (hist t : ℚ) = 0) :
    otsuStep total sum hist s t =
      ⟨s.wB + (hist t : ℚ), s.sumB, s.varMax, s.threshold, s.done⟩ := by
  simp only [otsuStep]
  rw [if_neg (by simp [h]), if_pos hz]

theorem otsuStep_eq_break (total sum : ℚ) (hist : ℕ → ℕ) (s : OtsuState) (t : ℕ)
    (h : s.done = false) (hz : ¬s.wB + (hist t : ℚ) = 0)
    (hf : total - (s.wB + (hist t : ℚ)) = 0) :
    otsuStep total sum hist s t =
      ⟨s.wB + (hist t : ℚ), s.sumB, s.varMax, s.threshold, true⟩ := by
  simp only [otsuStep]
  rw [if_neg (by simp [h]), if_neg hz, if_pos hf]

theorem otsuStep_eq_update (total sum : ℚ) (hist : ℕ → ℕ) (s : OtsuState) (t : ℕ)
    (h : s.done = false) (hz : ¬s.wB + (hist t : ℚ) = 0)
    (hf : ¬total - (s.wB + (hist t : ℚ)) = 0) :
    otsuStep total sum hist s t =
      if s.varMax < otsuVar total sum (s.wB + (hist t : ℚ)) (s.sumB + (t : ℚ) * (hist t : ℚ))
      then ⟨s.wB + (hist t : ℚ), s.sumB + (t : ℚ) * (hist t : ℚ),
        otsuVar total sum (s.wB + (hist t : ℚ)) (s.sumB + (t : ℚ) * (hist t : ℚ)), t, s.done⟩
      else ⟨s.wB + (hist t : ℚ), s.sumB + (t : ℚ) * (hist t : ℚ),
        s.varMax, s.threshold, s.done⟩ := by
  simp only [otsuStep, otsuVar]
  rw [if_neg (by simp [h]), if_neg hz, if_neg hf]

theorem otsuVar_scale (k total sum wB sumB : ℚ) (hk : k ≠ 0) :
    otsuVar (k * total) (k * sum) (k * wB) (k * sumB) = k ^ 2 * otsuVar total sum wB sumB := by
  unfold otsuVar
  have h1 : k * sumB / (k * wB) = sumB / wB := mul_div_mul_left _ _ hk
  have h2 : (k * sum - k * sumB) / (k * total - k * wB) = (sum - sumB) / (total - wB) := by
    rw [show k * sum - k * sumB = k * (sum - sumB) by ring,
      show k * total - k * wB = k * (total - wB) by ring]
    exact mul_div_mul_left _ _ hk
  rw [h1, h2]
  ring

theorem otsuVar_nonneg (total sum wB sumB : ℚ) (hwB : 0 < wB) (hwF : 0 < total - wB) :
    0 ≤ otsuVar total sum wB sumB := by
  unfold otsuVar
  set d := sumB / wB - (sum - sumB) / (total - wB) with hd
  rw [show wB * (total - wB) * d * d = (wB * (total - wB)) * (d * d) by ring]
  exact mul_nonneg (mul_pos hwB hwF).le (mul_self_nonneg d)

theorem otsuStep_rel (k : ℚ) (hk : 0 < k) (total sum : ℚ) (hist hist' : ℕ → ℕ)
    (hh : ∀ u, (hist' u : ℚ) = k * (hist u : ℚ)) (t : ℕ) (s s' : OtsuState)
    (h : OtsuRel k s s') (hwB : 0 ≤ s.wB) (hbound : s.wB + (hist t : ℚ) ≤ total) :
    OtsuRel k (otsuStep total sum hist s t) (otsuStep (k * total) (k * sum) hist' s' t) ∧
      0 ≤ (otsuStep total sum hist s t).wB ∧
      (otsuStep total sum hist s t).wB ≤ s.wB + (hist t : ℚ) := by
  obtain ⟨hdone, hth, hwb, hsb, hvar⟩ := h
  have hk0 : k ≠ 0 := ne_of_gt hk
  have hhist0 : (0 : ℚ) ≤ (hist t : ℚ) := Nat.cast_nonneg _
  have hwbn' : s'.wB + (hist' t : ℚ) = k * (s.wB + (hist t : ℚ)) := by
    rw [hwb, hh]; ring
  by_cases hd : s.done = true
  · have hd' : s'.done = true := by rw [hdone, hd]
    rw [otsuStep_eq_done total sum hist s t hd,
      otsuStep_eq_done (k * total) (k * sum) hist' s' t hd']
    exact ⟨⟨hdone, hth, hwb, hsb, hvar⟩, hwB, by linarith⟩
  · have hdf : s.done = false := by simpa using hd
    have hdf' : s'.done = false := by rw [hdone, hdf]
    by_cases hz : s.wB + (hist t : ℚ) = 0
    · have hz' : s'.wB + (hist' t : ℚ) = 0 := by rw [hwbn', hz, mul_zero]
      rw [otsuStep_eq_continue total sum hist s t hdf hz,
        otsuStep_eq_continue (k * total) (k * sum) hist' s' t hdf' hz']
      exact ⟨⟨by simp [hdone], by simp [hth], by simpa [hwbn'] using rfl,
        by simpa using hsb, by simpa using hvar⟩, le_of_eq hz.symm, le_of_eq (by rw [hz])⟩
    · have hz' : ¬s'.wB + (hist' t : ℚ) = 0 := by
        rw [hwbn']; exact mul_ne_zero hk0 hz
      have hwBpos : 0 < s.wB + (hist t : ℚ) :=
        lt_of_le_of_ne (by linarith) (Ne.symm hz)
      by_cases hf : total - (s.wB + (hist t : ℚ)) = 0
      · have hf' : k * total - (s'.wB + (hist' t : ℚ)) = 0 := by
          rw [hwbn', show k * total - k * (s.wB + (hist t : ℚ)) =
            k * (total - (s.wB + (hist t : ℚ))) by ring, hf, mul_zero]
        rw [otsuStep_eq_break total sum hist s t hdf hz hf,
          otsuStep_eq_break (k * total) (k * sum) hist' s' t hdf' hz' hf']
        exact ⟨⟨rfl, by simpa using hth, by simpa using hwbn',
          by simpa using hsb, by simpa using hvar⟩, by dsimp only; linarith, le_refl _⟩
      · have hf' : ¬k * total - (s'.wB + (hist' t : ℚ)) = 0 := by
          rw [hwbn', show k * total - k * (s.wB + (hist t : ℚ)) =
            k * (total - (s.wB + (hist t : ℚ))) by ring]
          exact mul_ne_zero hk0 hf
        have hwFpos : 0 < total - (s.wB + (hist t : ℚ)) :=
          lt_of_le_of_ne (by linarith) (Ne.symm hf)
        rw [otsuStep_eq_update total sum hist s t hdf hz hf,
          otsuStep_eq_update (k * total) (k * sum) hist' s' t hdf' hz' hf']
        have hsbn' : s'.sumB + (t : ℚ) * (hist' t : ℚ) =
            k * (s.sumB + (t : ℚ) * (hist t : ℚ)) := by
          rw [hsb, hh]; ring
        have hvs : otsuVar (k * total) (k * sum) (s'.wB + (hist' t : ℚ))
              (s'.sumB + (t : ℚ) * (hist' t : ℚ)) =
            k ^ 2 * otsuVar total sum (s.wB + (hist t : ℚ))
              (s.sumB + (t : ℚ) * (hist t : ℚ)) := by
          rw [hwbn', hsbn']
          exact otsuVar_scale k total sum _ _ hk0
        have hv0 : 0 ≤ otsuVar total sum (s.wB + (hist t : ℚ))
            (s.sumB + (t : ℚ) * (hist t : ℚ)) :=
          otsuVar_nonneg total sum _ _ hwBpos hwFpos
        have hk2 : (0 : ℚ) < k ^ 2 := by positivity
        have hiff : s'.varMax < otsuVar (k * total) (k * sum) (s'.wB + (hist' t : ℚ))
              (s'.sumB + (t : ℚ) * (hist' t : ℚ)) ↔
            s.varMax < otsuVar total sum (s.wB + (hist t : ℚ))
              (s.sumB + (t : ℚ) * (hist t : ℚ)) := by
          rw [hvs]
          rcases hvar with ⟨hv1, hv2⟩ | ⟨hv1, hv2⟩
          · rw [hv1, hv2]
            constructor
            · intro _; linarith
            · intro _
              have := mul_nonneg hk2.le hv0
              linarith
          · rw [hv2]
            exact mul_lt_mul_left hk2
        by_cases hcmp : s.varMax < otsuVar total sum (s.wB + (hist t : ℚ))
            (s.sumB + (t : ℚ) * (hist t : ℚ))
        · rw [if_pos hcmp, if_pos (hiff.mpr hcmp)]
          exact ⟨⟨by simpa using hdone, rfl, by simpa using hwbn', by simpa using hsbn',
            Or.inr ⟨hv0, by simpa using hvs⟩⟩, by dsimp only; linarith, le_refl _⟩
        · rw [if_neg hcmp, if_neg (fun hx => hcmp (hiff.mp hx))]
          exact ⟨⟨by simpa using hdone, by simpa using hth, by simpa using hwbn',
            by simpa using hsbn', by simpa using hvar⟩, by dsimp only; linarith, le_refl _⟩

theorem otsuFold_rel (k : ℚ) (hk : 0 < k) (total sum : ℚ) (hist hist' : ℕ → ℕ)
    (hh : ∀ u, (hist' u : ℚ) = k * (hist u : ℚ)) :
    ∀ (l : List ℕ) (s s' : OtsuState), OtsuRel k s s' → 0 ≤ s.wB →
      s.wB + ((l.map fun u => (hist u : ℚ)).sum) ≤ total →
      OtsuRel k (l.foldl (otsuStep total sum hist) s)
        (l.foldl (otsuStep (k * total) (k * sum) hist') s') := by
  intro l
  induction l with
  | nil => intro s s' h _ _; exact h
  | cons t rest ih =>
    intro s s' h hwB hbound
    simp only [List.map_cons, List.sum_cons] at hbound
    have hrest0 : (0 : ℚ) ≤ (rest.map fun u => (hist u : ℚ)).sum := by
      apply List.sum_nonneg
      intro q hq
      obtain ⟨u, _, rfl⟩ := List.mem_map.mp hq
      exact Nat.cast_nonneg _
    obtain ⟨hrel, hwB1, hle1⟩ := otsuStep_rel k hk total sum hist hist' hh t s s' h hwB
      (by linarith)
    simp only [List.foldl_cons]
    exact ih _ _ hrel hwB1 (by linarith)

/-- C8: the Otsu threshold selection is invariant under uniform replication
of the histogram — multiplying every bin count by a positive integer `k`
leaves the selected threshold unchanged. -/
theorem otsu_scale_invariant (hist : ℕ → ℕ) (k : ℕ) (hk : 0 < k) :
    otsuFromHist (fun t => k * hist t) = otsuFromHist hist := by
  have hkQ : (0 : ℚ) < (k : ℚ) := by exact_mod_cast hk
  have hh : ∀ u, (((k * hist u : ℕ)) : ℚ) = (k : ℚ) * (hist u : ℚ) := by
    intro u; push_cast; ring
  have hT : histTotalQ (fun t => k * hist t) = (k : ℚ) * histTotalQ hist := by
    unfold histTotalQ
    rw [show ((List.range 256).map fun t => ((k * hist t : ℕ) : ℚ)) =
      (List.range 256).map fun t => (k : ℚ) * (hist t : ℚ) from List.map_congr_left
        (fun t _ => hh t)]
    exact List.sum_map_mul_left _ _ _
  have hS : histSumQ (fun t => k * hist t) = (k : ℚ) * histSumQ hist := by
    unfold histSumQ
    rw [show ((List.range 256).map fun t : ℕ => (t : ℚ) * ((k * hist t : ℕ) : ℚ)) =
      (List.range 256).map fun t : ℕ => (k : ℚ) * ((t : ℚ) * (hist t : ℚ)) from
        List.map_congr_left (fun t _ => by rw [hh t]; ring)]
    exact List.sum_map_mul_left _ _ _
  have hrel := otsuFold_rel (k : ℚ) hkQ (histTotalQ hist) (histSumQ hist) hist
    (fun t => k * hist t) hh (List.range 256) otsuStart otsuStart
    ⟨rfl, rfl, by simp [otsuStart], by simp [otsuStart], Or.inl ⟨rfl, rfl⟩⟩
    (le_refl 0) (by simpa [otsuStart, histTotalQ] using le_refl (histTotalQ hist))
  unfold otsuFromHist otsuScanHist
  rw [hT, hS]
  exact hrel.2.1

/-- Witness for `otsu_scale_invariant`: doubling a concrete two-bin
histogram. -/
theorem otsu_scale_invariant_witness :
    0 < 2 ∧ otsuFromHist (fun t => 2 * (if t = 10 then 3 else if t = 200 then 5 else 0)) =
      otsuFromHist (fun t => if t = 10 then 3 else if t = 200 then 5 else 0) :=
  ⟨by decide, otsu_scale_invariant (fun t => if t = 10 then 3 else if t = 200 then 5 else 0)
    2 (by decide)⟩

theorem otsuFold_done (total sum : ℚ) (hist : ℕ → ℕ) :
    ∀ (l : List ℕ) (s : OtsuState), s.done = true →
      l.foldl (otsuStep total sum hist) s = s := by
  intro l
  induction l with
  | nil => intro s _; rfl
  | cons t rest ih =>
    intro s h
    rw [List.foldl_cons, otsuStep_eq_done total sum hist s t h]
    exact ih s h

theorem otsuFold_zeros (total sum : ℚ) (hist : ℕ → ℕ) :
    ∀ l : List ℕ, (∀ t ∈ l, hist t = 0) → ∀ s : OtsuState, s.done = false → s.wB = 0 →
      l.foldl (otsuStep total sum hist) s = s := by
  intro l
  induction l with
  | nil => intro _ s _ _; rfl
  | cons t rest ih =>
    intro hl s hd hw
    have hz : s.wB + (hist t : ℚ) = 0 := by
      rw [hw, hl t (List.mem_cons_self t rest), Nat.cast_zero, add_zero]
    have hstep : otsuStep total sum hist s t = s := by
      rw [otsuStep_eq_continue total sum hist s t hd hz]
      rw [hz]
      rw [show s = ⟨s.wB, s.sumB, s.varMax, s.threshold, s.done⟩ from rfl, hw]
    rw [List.foldl_cons, hstep]
    exact ih (fun u hu => hl u (List.mem_cons_of_mem t hu)) s hd hw

theorem otsuScan_uniform (g n : ℕ) (hg : g < 256) (hn : 0 < n) (sum : ℚ) :
    otsuScanHist (fun t => if t = g then n else 0) (n : ℚ) sum = 128 := by
  unfold otsuScanHist
  have h256 : (256 : ℕ) = g + ((255 - g) + 1) := by omega
  rw [h256, List.range_add, List.foldl_append]
  have h1 : (List.range g).foldl (otsuStep (n : ℚ) sum fun t => if t = g then n else 0)
      otsuStart = otsuStart := by
    apply otsuFold_zeros
    · intro t ht
      rw [List.mem_range] at ht
      simp [Nat.ne_of_lt ht]
    · rfl
    · rfl
  rw [h1, List.range_succ_eq_map, List.map_cons, List.foldl_cons]
  have hne : ¬otsuStart.wB + ((if g + 0 = g then n else 0 : ℕ) : ℚ) = 0 := by
    simp only [Nat.add_zero, if_pos rfl, otsuStart]
    rw [zero_add]
    exact_mod_cast Nat.pos_iff_ne_zero.mp hn
  have hf : (n : ℚ) - (otsuStart.wB + ((if g + 0 = g then n else 0 : ℕ) : ℚ)) = 0 := by
    simp [otsuStart]
  rw [otsuStep_eq_break (n : ℚ) sum _ otsuStart (g + 0) rfl hne hf]
  rw [otsuFold_done (n : ℚ) sum _ _ _ rfl]
  rfl

/-- C10: on a region whose pixels all share one gray level the Otsu scan
never assigns a threshold — the background class is empty until the single
occupied bin, where the foreground class becomes empty and the scan breaks
— so `otsuThresholdFromRect` returns the default `128`, and the ink
predicate built from that rect classifies every pixel by `gray < 128`. -/
theorem otsu_uniform_default (img : Img) (rect : Rect) (g : ℕ) (hg : g < 256)
    (hne : rectPixels rect ≠ [])
    (hu : ∀ p ∈ rectPixels rect, grayPix img p.1 p.2 = g) :
    otsuThresholdFromRect img rect = 128 ∧
    ∀ x y : ℤ, (buildInkFn img rect).isInk x y = decide (grayPix img x y < 128) := by
  have hth : otsuThresholdFromRect img rect = 128 := by
    unfold otsuThresholdFromRect
    have hlen : ¬(rectPixels rect).length ≤ 0 := by
      intro hle
      exact hne (List.length_eq_zero.mp (Nat.le_zero.mp hle))
    rw [if_neg hlen]
    have hhist : (fun t => (rectPixels rect).countP fun p => decide (grayPix img p.1 p.2 = t)) =
        fun t => if t = g then (rectPixels rect).length else 0 := by
      funext t
      by_cases htg : t = g
      · subst htg
        rw [if_pos rfl]
        exact List.countP_eq_length.mpr fun p hp => by simp [hu p hp]
      · rw [if_neg htg]
        exact List.countP_eq_zero.mpr fun p hp => by
          simp only [hu p hp, decide_eq_true_eq]
          exact fun c => htg c.symm
    rw [hhist]
    exact otsuScan_uniform g _ hg (List.length_pos.mpr hne) _
  refine ⟨hth, ?_⟩
  intro x y
  simp only [buildInkFn]
  rw [hth]

/-- Witness for `otsu_uniform_default`: a 1 × 1 buffer whose only pixel has
channel bytes `(7, 7, 7)`, hence uniform gray `7`. -/
theorem otsu_uniform_default_witness :
    (7 < 256 ∧ rectPixels ⟨0, 0, 1, 1⟩ ≠ [] ∧
      (∀ p ∈ rectPixels ⟨0, 0, 1, 1⟩, grayPix ⟨1, 1, fun _ => 7⟩ p.1 p.2 = 7)) ∧
    (otsuThresholdFromRect ⟨1, 1, fun _ => 7⟩ ⟨0, 0, 1, 1⟩ = 128 ∧
      ∀ x y : ℤ, (buildInkFn ⟨1, 1, fun _ => 7⟩ ⟨0, 0, 1, 1⟩).isInk x y =
        decide (grayPix ⟨1, 1, fun _ => 7⟩ x y < 128)) := by
  have hpix : rectPixels ⟨0, 0, 1, 1⟩ = [(0, 0)] := by
    have ht0 : truncQ 0 = 0 := by decide
    have ht1 : truncQ (0 + 1) = 1 := by
      rw [show (0 : ℚ) + 1 = 1 by norm_num]
      decide
    have hbody : rectPixels ⟨0, 0, 1, 1⟩ =
        (intRange 0 1).flatMap fun y => (intRange 0 1).map fun x => (x, y) := by
      simp only [rectPixels]
      rw [ht0, ht1]
    rw [hbody, show intRange 0 1 = [0] by decide]
    decide
  have h1 : rectPixels ⟨0, 0, 1, 1⟩ ≠ [] := by rw [hpix]; exact List.cons_ne_nil _ _
  have h2 : ∀ p ∈ rectPixels ⟨0, 0, 1, 1⟩, grayPix ⟨1, 1, fun _ => 7⟩ p.1 p.2 = 7 := by
    rw [hpix]
    intro p hp
    rw [List.mem_singleton] at hp
    subst hp
    decide
  exact ⟨⟨by norm_num, h1, h2⟩,
    otsu_uniform_default ⟨1, 1, fun _ => 7⟩ ⟨0, 0, 1, 1⟩ 7 (by norm_num) h1 h2⟩

/-- The row coordinates visited by the loop
`for (y = r.y; y < r.y + r.h; y++)`: the values `r.y + k` for natural `k`
with `k < r.h`, i.e. `⌈r.h⌉` iterations. -/
def rectRows (r : Rect) : List ℚ :=
  (List.range ⌈r.h⌉₊).map fun k : ℕ => r.y + (k : ℚ)

/-- The column coordinates visited by `for (x = r.x; x < r.x + r.w; x++)`. -/
def rectCols (r : Rect) : List ℚ :=
  (List.range ⌈r.w⌉₊).map fun k : ℕ => r.x + (k : ℚ)

/-- The inner loop of `findXAxisY`: the ink count of row `y` over the
clamped rect's columns. -/
def rowInkCount (isInk : ℚ → ℚ → Bool) (r : Rect) (y : ℚ) : ℕ :=
  ((rectCols r).filter fun x => isInk x y).length

/-- The inner loop of `findYAxisX`: the ink count of column `x` over the
clamped rect's rows. -/
def colInkCount (isInk : ℚ → ℚ → Bool) (r : Rect) (x : ℚ) : ℕ :=
  ((rectRows r).filter fun y => isInk x y).length

/-- The best-so-far loop shared by `findXAxisY` and `findYAxisX`: state
`(best position, best score)`, updated only on a strictly greater score
(`if (s > best)` in the source). -/
def firstMaxAux (score : ℚ → ℤ) (b : ℚ) (s : ℤ) (l : List ℚ) : ℚ × ℤ :=
  l.foldl (fun st y => if st.2 < score y then (y, score y) else st) (b, s)

/-- `findXAxisY` from detect.ts: clamp the ROI, then scan rows in
increasing `y` keeping the first row whose ink count strictly exceeds the
best so far (`bestY` starts at `r.y`, `best` at `-1`). -/
def findXAxisY (W H : ℕ) (roi : Rect) (isInk : ℚ → ℚ → Bool) : ℚ :=
  let r := clampRect roi W H
  (firstMaxAux (fun y => (rowInkCount isInk r y : ℤ)) r.y (-1) (rectRows r)).1

/-- `findYAxisX` from detect.ts: the symmetric column version. -/
def findYAxisX (W H : ℕ) (roi : Rect) (isInk : ℚ → ℚ → Bool) : ℚ :=
  let r := clampRect roi W H
  (firstMaxAux (fun x => (colInkCount isInk r x : ℤ)) r.x (-1) (rectCols r)).1

theorem clampRect_w_one (r : Rect) (w h : ℚ) : 1 ≤ (clampRect r w h).w := by
  simp only [clampRect]
  exact le_max_left 1 _

theorem clampRect_h_one (r : Rect) (w h : ℚ) : 1 ≤ (clampRect r w h).h := by
  simp only [clampRect]
  exact le_max_left 1 _

theorem rectRows_ne_nil (r : Rect) (hr : 1 ≤ r.h) : rectRows r ≠ [] := by
  have hpos : 0 < ⌈r.h⌉₊ := Nat.ceil_pos.mpr (by linarith)
  intro hc
  have hlen : (rectRows r).length = ⌈r.h⌉₊ := by
    simp [rectRows]
  rw [hc] at hlen
  simp at hlen
  omega

theorem rectCols_ne_nil (r : Rect) (hr : 1 ≤ r.w) : rectCols r ≠ [] := by
  have hpos : 0 < ⌈r.w⌉₊ := Nat.ceil_pos.mpr (by linarith)
  intro hc
  have hlen : (rectCols r).length = ⌈r.w⌉₊ := by
    simp [rectCols]
  rw [hc] at hlen
  simp at hlen
  omega

theorem rectRows_pairwise (r : Rect) : (rectRows r).Pairwise (· < ·) := by
  unfold rectRows
  rw [List.pairwise_map]
  refine List.Pairwise.imp ?_ (List.pairwise_lt_range ⌈r.h⌉₊)
  intro a b hab
  have hq : (a : ℚ) < b := by exact_mod_cast hab
  linarith

theorem rectCols_pairwise (r : Rect) : (rectCols r).Pairwise (· < ·) := by
  unfold rectCols
  rw [List.pairwise_map]
  refine List.Pairwise.imp ?_ (List.pairwise_lt_range ⌈r.w⌉₊)
  intro a b hab
  have hq : (a : ℚ) < b := by exact_mod_cast hab
  linarith

theorem firstMaxAux_spec (score : ℚ → ℤ) :
    ∀ l : List ℚ, l.Pairwise (· < ·) → ∀ (b : ℚ) (s : ℤ),
      (firstMaxAux score b s l = (b, s) ∧ ∀ y ∈ l, score y ≤ s) ∨
      ((firstMaxAux score b s l).1 ∈ l ∧
        (firstMaxAux score b s l).2 = score (firstMaxAux score b s l).1 ∧
        s < (firstMaxAux score b s l).2 ∧
        (∀ y ∈ l, score y ≤ (firstMaxAux score b s l).2) ∧
        ∀ y ∈ l, score y = (firstMaxAux score b s l).2 → (firstMaxAux score b s l).1 ≤ y) := by
  intro l
  induction l with
  | nil =>
    intro _ b s
    left
    exact ⟨rfl, by simp⟩
  | cons a as ih =>
    intro hpw b s
    rw [List.pairwise_cons] at hpw
    obtain ⟨ha, hpw'⟩ := hpw
    by_cases hlt : s < score a
    · have hstep : firstMaxAux score b s (a :: as) = firstMaxAux score a (score a) as := by
        unfold firstMaxAux
        rw [List.foldl_cons, if_pos hlt]
      rw [hstep]
      rcases ih hpw' a (score a) with ⟨heq, hall⟩ | ⟨hm, hsc, hlt2, hall, hties⟩
      · right
        rw [heq]
        refine ⟨List.mem_cons_self a as, rfl, hlt, ?_, ?_⟩
        · intro y hy
          rcases List.mem_cons.mp hy with rfl | hy'
          · exact le_refl _
          · exact hall y hy'
        · intro y hy _
          rcases List.mem_cons.mp hy with rfl | hy'
          · exact le_refl _
          · exact (ha y hy').le
      · right
        refine ⟨List.mem_cons_of_mem a hm, hsc, lt_trans hlt hlt2, ?_, ?_⟩
        · intro y hy
          rcases List.mem_cons.mp hy with rfl | hy'
          · exact hlt2.le
          · exact hall y hy'
        · intro y hy hq
          rcases List.mem_cons.mp hy with rfl | hy'
          · exact absurd hq (ne_of_lt hlt2)
          · exact hties y hy' hq
    · have hstep : firstMaxAux score b s (a :: as) = firstMaxAux score b s as := by
        unfold firstMaxAux
        rw [List.foldl_cons, if_neg hlt]
      rw [hstep]
      have hsa : score a ≤ s := not_lt.mp hlt
      rcases ih hpw' b s with ⟨heq, hall⟩ | ⟨hm, hsc, hlt2, hall, hties⟩
      · left
        refine ⟨heq, ?_⟩
        intro y hy
        rcases List.mem_cons.mp hy with rfl | hy'
        · exact hsa
        · exact hall y hy'
      · right
        refine ⟨List.mem_cons_of_mem a hm, hsc, hlt2, ?_, ?_⟩
        · intro y hy
          rcases List.mem_cons.mp hy with rfl | hy'
          · exact le_trans hsa hlt2.le
          · exact hall y hy'
        · intro y hy hq
          rcases List.mem_cons.mp hy with rfl | hy'
          · exact absurd hq (ne_of_lt (lt_of_le_of_lt hsa hlt2))
          · exact hties y hy' hq

theorem firstMaxAux_pos (score : ℚ → ℤ) (hscore : ∀ y, 0 ≤ score y)
    (l : List ℚ) (hl : l ≠ []) (hpw : l.Pairwise (· < ·)) (b : ℚ) :
    (firstMaxAux score b (-1) l).1 ∈ l ∧
    (∀ y ∈ l, score y ≤ score (firstMaxAux score b (-1) l).1) ∧
    ∀ y ∈ l, score y = score (firstMaxAux score b (-1) l).1 →
      (firstMaxAux score b (-1) l).1 ≤ y := by
  rcases firstMaxAux_spec score l hpw b (-1) with ⟨_, hall⟩ | ⟨hm, hsc, _, hall, hties⟩
  · obtain ⟨y, hy⟩ := List.exists_mem_of_ne_nil l hl
    have h1 := hall y hy
    have h2 := hscore y
    omega
  · rw [hsc] at hall hties
    exact ⟨hm, hall, hties⟩

/-- C6: `findXAxisY` returns a row of the clamped ROI attaining the maximum
ink count, and among rows attaining that maximum it returns the smallest
(rows are scanned in increasing `y` with a strict-greater comparison, so
the first maximum wins); `findYAxisX` is the symmetric column statement. -/
theorem axis_locators_first_max (W H : ℕ) (roi : Rect) (isInk : ℚ → ℚ → Bool) :
    (findXAxisY W H roi isInk ∈ rectRows (clampRect roi W H) ∧
      (∀ y ∈ rectRows (clampRect roi W H),
        rowInkCount isInk (clampRect roi W H) y ≤
          rowInkCount isInk (clampRect roi W H) (findXAxisY W H roi isInk)) ∧
      ∀ y ∈ rectRows (clampRect roi W H),
        rowInkCount isInk (clampRect roi W H) y =
          rowInkCount isInk (clampRect roi W H) (findXAxisY W H roi isInk) →
        findXAxisY W H roi isInk ≤ y) ∧
    (findYAxisX W H roi isInk ∈ rectCols (clampRect roi W H) ∧
      (∀ x ∈ rectCols (clampRect roi W H),
        colInkCount isInk (clampRect roi W H) x ≤
          colInkCount isInk (clampRect roi W H) (findYAxisX W H roi isInk)) ∧
      ∀ x ∈ rectCols (clampRect roi W H),
        colInkCount isInk (clampRect roi W H) x =
          colInkCount isInk (clampRect roi W H) (findYAxisX W H roi isInk) →
        findYAxisX W H roi isInk ≤ x) := by
  constructor
  · obtain ⟨hm, hmax, hties⟩ := firstMaxAux_pos
      (fun y => (rowInkCount isInk (clampRect roi W H) y : ℤ)) (fun y => Int.ofNat_nonneg _)
      (rectRows (clampRect roi W H))
      (rectRows_ne_nil _ (clampRect_h_one roi W H))
      (rectRows_pairwise _) (clampRect roi W H).y
    refine ⟨hm, ?_, ?_⟩
    · intro y hy
      exact_mod_cast hmax y hy
    · intro y hy hq
      exact hties y hy (by exact_mod_cast hq)
  · obtain ⟨hm, hmax, hties⟩ := firstMaxAux_pos
      (fun x => (colInkCount isInk (clampRect roi W H) x : ℤ)) (fun x => Int.ofNat_nonneg _)
      (rectCols (clampRect roi W H))
      (rectCols_ne_nil _ (clampRect_w_one roi W H))
      (rectCols_pairwise _) (clampRect roi W H).x
    refine ⟨hm, ?_, ?_⟩
    · intro x hx
      exact_mod_cast hmax x hx
    · intro x hx hq
      exact hties x hx (by exact_mod_cast hq)

/-- Witness for `axis_locators_first_max`: an all-ink 2 × 2 buffer, where
rows 0 and 1 tie at count 2, so the returned row 0 is ≤ the tying row 1. -/
theorem axis_locators_first_max_witness :
    ((1 : ℚ) ∈ rectRows (clampRect ⟨0, 0, 2, 2⟩ 2 2) ∧
      rowInkCount (fun _ _ => true) (clampRect ⟨0, 0, 2, 2⟩ 2 2) 1 =
        rowInkCount (fun _ _ => true) (clampRect ⟨0, 0, 2, 2⟩ 2 2)
          (findXAxisY 2 2 ⟨0, 0, 2, 2⟩ fun _ _ => true)) ∧
    findXAxisY 2 2 ⟨0, 0, 2, 2⟩ (fun _ _ => true) ≤ 1 := by
  have hcl : clampRect ⟨0, 0, 2, 2⟩ 2 2 = ⟨0, 0, 2, 2⟩ := by
    norm_num [clampRect, max_def, min_def]
  have hrows : rectRows (⟨0, 0, 2, 2⟩ : Rect) = [0, 1] := by
    norm_num [rectRows, List.range_succ]
  have hcols : rectCols (⟨0, 0, 2, 2⟩ : Rect) = [0, 1] := by
    norm_num [rectCols, List.range_succ]
  have hcount : ∀ y : ℚ, rowInkCount (fun _ _ => true) (⟨0, 0, 2, 2⟩ : Rect) y = 2 := by
    intro y
    rw [rowInkCount, hcols]
    rfl
  have h1 : (1 : ℚ) ∈ rectRows (clampRect ⟨0, 0, 2, 2⟩ 2 2) := by
    rw [hcl, hrows]
    simp
  have h2 : rowInkCount (fun _ _ => true) (clampRect ⟨0, 0, 2, 2⟩ 2 2) 1 =
      rowInkCount (fun _ _ => true) (clampRect ⟨0, 0, 2, 2⟩ 2 2)
        (findXAxisY 2 2 ⟨0, 0, 2, 2⟩ fun _ _ => true) := by
    rw [hcl, hcount, hcount]
  exact ⟨⟨h1, h2⟩,
    (axis_locators_first_max 2 2 ⟨0, 0, 2, 2⟩ (fun _ _ => true)).1.2.2 1 h1 h2⟩

/-- The tracing mode `"centerline" | "median"` of curve.ts. -/
inductive TraceMode
  | centerline
  | median
deriving DecidableEq, Repr

/-- A run `{ymin, ymax}` of contiguous matching rows in one column. -/
structure Run where
  ymin : ℕ
  ymax : ℕ
deriving DecidableEq, Repr

/-- `runRepresentativeY` from curve.ts: the midpoint `(ymin + ymax) / 2`
for `"centerline"`, its floor for `"median"`. -/
def runRepresentativeY (run : Run) (mode : TraceMode) : ℚ :=
  let mid : ℚ := ((run.ymin : ℚ) + (run.ymax : ℚ)) / 2
  match mode with
  | .median => (⌊mid⌋ : ℚ)
  | .centerline => mid

/-- A color `{r, g, b}` (the picked curve color; source fields are
JavaScript numbers). -/
structure Rgb where
  r : ℚ
  g : ℚ
  b : ℚ
deriving DecidableEq, Repr

/-- The match test of `findRunsInColumn`: the source rejects a pixel when
`Math.hypot(dr, dg, db) >= threshold`, so it matches iff the Euclidean RGB
distance is `< threshold`.  Since the distance is a nonnegative square
root, `dist < threshold ⟺ 0 < threshold ∧ dist² < threshold²`, which is
the exact rational comparison embedded here. -/
def distRgbLt (r g b : ℚ) (c : Rgb) (threshold : ℚ) : Bool :=
  decide (0 < threshold ∧
    (r - c.r) * (r - c.r) + (g - c.g) * (g - c.g) + (b - c.b) * (b - c.b) <
      threshold * threshold)

/-- The per-row test of `findRunsInColumn`: a row is a match iff it is not
blacklisted and its color is within `threshold` of the picked color. -/
def runOk (img : Img) (x : ℕ) (picked : Rgb) (threshold : ℚ)
    (isBL : ℕ → ℕ → Bool) (y : ℕ) : Bool :=
  !isBL x y &&
    (let idx : ℤ := ((y * img.width + x : ℕ) : ℤ) * 4
     distRgbLt (img.data idx : ℚ) (img.data (idx + 1) : ℚ) (img.data (idx + 2) : ℚ)
       picked threshold)

/-- `findRunsInColumn` from curve.ts: scan rows `0 … height−1` top to
bottom, opening a run at the first matching row and closing it at the row
before the first non-match; a run still open after the last row closes at
`height − 1`. -/
def findRunsInColumn (img : Img) (x : ℕ) (picked : Rgb) (threshold : ℚ)
    (isBL : ℕ → ℕ → Bool) : List Run :=
  let st := (List.range img.height).foldl
    (fun (st : List Run × Option ℕ) y =>
      match st.2, runOk img x picked threshold isBL y with
      | none, true => (st.1, some y)
      | some s, false => (st.1 ++ [⟨s, y - 1⟩], none)
      | _, _ => st)
    ([], none)
  match st.2 with
  | some s => st.1 ++ [⟨s, img.height - 1⟩]
  | none => st.1

/-- The best-by-distance loop shared by `chooseInitialY` and `chooseNextY`:
carry `(bestY, bestD)` and replace it only on a strictly smaller distance
(`if (d < bestD)` in the source), scanning all runs. -/
def bestByDist (target : ℚ) (mode : TraceMode) : List Run → ℚ × ℚ → ℚ × ℚ
  | [], b => b
  | r :: rest, b =>
    let y := runRepresentativeY r mode
    let d := |y - target|
    bestByDist target mode rest (if d < b.2 then (y, d) else b)

/-- `chooseInitialY` from curve.ts: `null` on no runs, otherwise the
representative Y of the run closest to the seed's y. -/
def chooseInitialY (runs : List Run) (seedY : ℚ) (mode : TraceMode) : Option ℚ :=
  match runs with
  | [] => none
  | r0 :: _ =>
    (bestByDist seedY mode runs
      (runRepresentativeY r0 mode, |runRepresentativeY r0 mode - seedY|)).1

/-- The `yPred` computation of `chooseNextY`: linear extrapolation
`yPrev + (yPrev − yPrev2)`, or `yPrev` before a second prior point exists. -/
def predictY (yPrev : ℚ) (yPrev2 : Option ℚ) : ℚ :=
  match yPrev2 with
  | none => yPrev
  | some y2 => yPrev + (yPrev - y2)

/-- `chooseNextY` from curve.ts: `null` on no runs; otherwise pick the run
whose representative Y is closest to the predicted Y, and return `null`
when that best distance exceeds `maxJump` (`if (bestD > maxJump)`). -/
def chooseNextY (runs : List Run) (yPrev : ℚ) (yPrev2 : Option ℚ) (mode : TraceMode)
    (maxJump : ℚ) : Option ℚ :=
  match runs with
  | [] => none
  | r0 :: _ =>
    let yPred := predictY yPrev yPrev2
    let best := bestByDist yPred mode runs
      (runRepresentativeY r0 mode, |runRepresentativeY r0 mode - yPred|)
    if maxJump < best.2 then none else some best.1

/-- The fixed inputs of one trace: buffer, picked color, color threshold,
representative mode, jump limit and blacklist predicate. -/
structure TraceCtx where
  img : Img
  pickedColor : Rgb
  threshold : ℚ
  mode : TraceMode
  maxJump : ℚ
  isBL : ℕ → ℕ → Bool

/-- The `traceDir` loop of `traceCurveWithSeeds`: push `(x, yPrev)`, stop
when the next column `x + dir` leaves the buffer or `chooseNextY` returns
`null` there, otherwise advance.  The `while (true)` loop is modelled with
a fuel parameter; the caller passes `width` fuel, which is never exhausted
because each iteration moves `x` one column closer to the boundary that
terminates the loop (at most `width − 1` advances can happen from any
start column). -/
def traceDirAux (c : TraceCtx) (dir : ℤ) : ℕ → ℕ → ℚ → Option ℚ → List (ℕ × ℚ)
  | 0, x, yPrev, _ => [(x, yPrev)]
  | fuel + 1, x, yPrev, yPrev2 =>
    (x, yPrev) ::
      (let xn : ℤ := (x : ℤ) + dir
       if xn < 0 ∨ (c.img.width : ℤ) ≤ xn then []
       else
         match chooseNextY (findRunsInColumn c.img xn.toNat c.pickedColor c.threshold c.isBL)
             yPrev yPrev2 c.mode c.maxJump with
         | none => []
         | some yNext => traceDirAux c dir fuel xn.toNat yNext (some yPrev))

/-- `traceCurveWithSeeds` from curve.ts: empty on a degenerate buffer or
fewer than 3 seeds; sort the seeds by x (stably — JavaScript `sort`) and
take the middle one; its rounded, clamped x is the origin column; the
initial y is the representative of the run closest to the seed's y (empty
result when the column has no run); trace right and left, then merge:
reverse the leftward trace and append the rightward trace minus its first
(duplicate origin) point. -/
def traceCurveWithSeeds (c : TraceCtx) (seeds : List Pt) : List (ℕ × ℚ) :=
  if c.img.width = 0 ∨ c.img.height = 0 then []
  else if seeds.length < 3 then []
  else
    match seeds.mergeSort (fun a b => a.x ≤ b.x) with
    | _ :: sMid :: _ =>
      let x0 : ℕ := (max 0 (min ((c.img.width : ℤ) - 1) (round sMid.x))).toNat
      match chooseInitialY (findRunsInColumn c.img x0 c.pickedColor c.threshold c.isBL)
          sMid.y c.mode with
      | none => []
      | some y0 =>
        let right := traceDirAux c 1 c.img.width x0 y0 none
        let left := traceDirAux c (-1) c.img.width x0 y0 none
        left.reverse ++ right.drop 1
    | _ => []

theorem bestByDist_spec (target : ℚ) (mode : TraceMode) :
    ∀ (runs : List Run) (b : ℚ × ℚ), b.2 = |b.1 - target| →
      (bestByDist target mode runs b).2 = |(bestByDist target mode runs b).1 - target| ∧
      (bestByDist target mode runs b = b ∨
        ∃ r ∈ runs, (bestByDist target mode runs b).1 = runRepresentativeY r mode) ∧
      (bestByDist target mode runs b).2 ≤ b.2 ∧
      ∀ r ∈ runs, (bestByDist target mode runs b).2 ≤ |runRepresentativeY r mode - target| := by
  intro runs
  induction runs with
  | nil =>
    intro b hb
    exact ⟨hb, Or.inl rfl, le_refl _, by simp⟩
  | cons r rest ih =>
    intro b hb
    by_cases hd : |runRepresentativeY r mode - target| < b.2
    · have hstep : bestByDist target mode (r :: rest) b =
          bestByDist target mode rest
            (runRepresentativeY r mode, |runRepresentativeY r mode - target|) := by
        simp only [bestByDist, if_pos hd]
      obtain ⟨h1, h2, h3, h4⟩ := ih
        (runRepresentativeY r mode, |runRepresentativeY r mode - target|) rfl
      rw [hstep]
      refine ⟨h1, ?_, le_trans h3 hd.le, ?_⟩
      · rcases h2 with heq | ⟨r2, hr2, hy2⟩
        · right
          exact ⟨r, List.mem_cons_self r rest, by rw [heq]⟩
        · right
          exact ⟨r2, List.mem_cons_of_mem r hr2, hy2⟩
      · intro r2 hr2
        rcases List.mem_cons.mp hr2 with rfl | hr2'
        · exact h3
        · exact h4 r2 hr2'
    · have hstep : bestByDist target mode (r :: rest) b = bestByDist target mode rest b := by
        simp only [bestByDist, if_neg hd]
      obtain ⟨h1, h2, h3, h4⟩ := ih b hb
      rw [hstep]
      refine ⟨h1, ?_, h3, ?_⟩
      · rcases h2 with heq | ⟨r2, hr2, hy2⟩
        · exact Or.inl heq
        · exact Or.inr ⟨r2, List.mem_cons_of_mem r hr2, hy2⟩
      · intro r2 hr2
        rcases List.mem_cons.mp hr2 with rfl | hr2'
        · exact le_trans h3 (not_lt.mp hd)
        · exact h4 r2 hr2'

/-- C5: at each tracing step the run whose representative Y is closest to
the predicted Y (`yPred = yPrev + (yPrev − yPrev2)`, or `yPrev` before a
second prior point exists) is selected; when the best distance exceeds
`maxJump`, `chooseNextY` returns no run and the directional trace emits no
further points — it ends at the prior column (the traces are also
consecutive-column, see `traceDirAux_chain` used by C9, so there is no
column-skipping or backtracking). -/
theorem choose_next_jump_limit :
    (∀ (runs : List Run) (yPrev : ℚ) (yPrev2 : Option ℚ) (mode : TraceMode) (maxJump : ℚ),
      ((∃ r ∈ runs, |runRepresentativeY r mode - predictY yPrev yPrev2| ≤ maxJump) →
        ∃ y, chooseNextY runs yPrev yPrev2 mode maxJump = some y ∧
          (∃ r ∈ runs, y = runRepresentativeY r mode) ∧
          |y - predictY yPrev yPrev2| ≤ maxJump ∧
          ∀ r ∈ runs, |y - predictY yPrev yPrev2| ≤
            |runRepresentativeY r mode - predictY yPrev yPrev2|) ∧
      ((∀ r ∈ runs, maxJump < |runRepresentativeY r mode - predictY yPrev yPrev2|) →
        chooseNextY runs yPrev yPrev2 mode maxJump = none)) ∧
    ∀ (c : TraceCtx) (dir : ℤ) (fuel x : ℕ) (yPrev : ℚ) (yPrev2 : Option ℚ),
      ¬((x : ℤ) + dir < 0 ∨ (c.img.width : ℤ) ≤ (x : ℤ) + dir) →
      chooseNextY (findRunsInColumn c.img ((x : ℤ) + dir).toNat c.pickedColor c.threshold c.isBL)
        yPrev yPrev2 c.mode c.maxJump = none →
      traceDirAux c dir (fuel + 1) x yPrev yPrev2 = [(x, yPrev)] := by
  constructor
  · intro runs yPrev yPrev2 mode maxJump
    cases runs with
    | nil =>
      constructor
      · rintro ⟨r, hr, -⟩
        exact absurd hr (List.not_mem_nil r)
      · intro _
        rfl
    | cons r0 rest =>
      obtain ⟨hbd, hmem, hle0, hall⟩ := bestByDist_spec (predictY yPrev yPrev2) mode
        (r0 :: rest)
        (runRepresentativeY r0 mode, |runRepresentativeY r0 mode - predictY yPrev yPrev2|) rfl
      set best := bestByDist (predictY yPrev yPrev2) mode (r0 :: rest)
        (runRepresentativeY r0 mode, |runRepresentativeY r0 mode - predictY yPrev yPrev2|)
        with hbest
      have hunfold : chooseNextY (r0 :: rest) yPrev yPrev2 mode maxJump =
          if maxJump < best.2 then none else some best.1 := by
        simp only [chooseNextY, hbest]
      constructor
      · rintro ⟨r, hr, hrle⟩
        have hb2 : best.2 ≤ maxJump := le_trans (hall r hr) hrle
        refine ⟨best.1, ?_, ?_, ?_, ?_⟩
        · rw [hunfold, if_neg (not_lt.mpr hb2)]
        · rcases hmem with heq | hex
          · exact ⟨r0, List.mem_cons_self r0 rest, by rw [heq]⟩
          · exact hex
        · rw [← hbd]
          exact hb2
        · intro r2 hr2
          rw [← hbd]
          exact hall r2 hr2
      · intro hgt
        have hb2 : maxJump < best.2 := by
          rcases hmem with heq | ⟨r2, hr2, hy2⟩
          · rw [heq]
            exact hgt r0 (List.mem_cons_self r0 rest)
          · rw [hbd, hy2]
            exact hgt r2 hr2
        rw [hunfold, if_pos hb2]
  · intro c dir fuel x yPrev yPrev2 hb hn
    simp only [traceDirAux, if_neg hb, hn]

/-- The fuel of `traceDirAux` is irrelevant once it covers the columns
remaining to the right boundary — in particular the `width` fuel passed by
`traceCurveWithSeeds` never cuts a rightward trace short. -/
theorem traceDirAux_fuel_right (c : TraceCtx) :
    ∀ (f1 f2 x : ℕ) (y : ℚ) (y2 : Option ℚ),
      c.img.width ≤ x + 1 + f1 → c.img.width ≤ x + 1 + f2 →
      traceDirAux c 1 f1 x y y2 = traceDirAux c 1 f2 x y y2 := by
  intro f1
  induction f1 with
  | zero =>
    intro f2 x y y2 h1 h2
    cases f2 with
    | zero => rfl
    | succ g =>
      have hb : ((x : ℤ) + 1 < 0 ∨ (c.img.width : ℤ) ≤ (x : ℤ) + 1) := by
        right
        omega
      simp only [traceDirAux, if_pos hb]
  | succ f1 ih =>
    intro f2 x y y2 h1 h2
    cases f2 with
    | zero =>
      have hb : ((x : ℤ) + 1 < 0 ∨ (c.img.width : ℤ) ≤ (x : ℤ) + 1) := by
        right
        omega
      simp only [traceDirAux, if_pos hb]
    | succ g =>
      by_cases hb : ((x : ℤ) + 1 < 0 ∨ (c.img.width : ℤ) ≤ (x : ℤ) + 1)
      · simp only [traceDirAux, if_pos hb]
      · have hxn : ((x : ℤ) + 1).toNat = x + 1 := by omega
        simp only [traceDirAux, if_neg hb, hxn]
        cases hc : chooseNextY
            (findRunsInColumn c.img (x + 1) c.pickedColor c.threshold c.isBL)
            y y2 c.mode c.maxJump with
        | none => rfl
        | some yNext =>
          dsimp only
          rw [ih g (x + 1) yNext (some y) (by omega) (by omega)]

/-- The symmetric fuel-irrelevance statement for the leftward trace: fuel
covering the columns down to `0` (in particular the `width` fuel) is
enough. -/
theorem traceDirAux_fuel_left (c : TraceCtx) :
    ∀ (f1 f2 x : ℕ) (y : ℚ) (y2 : Option ℚ), x ≤ f1 → x ≤ f2 →
      traceDirAux c (-1) f1 x y y2 = traceDirAux c (-1) f2 x y y2 := by
  intro f1
  induction f1 with
  | zero =>
    intro f2 x y y2 h1 h2
    cases f2 with
    | zero => rfl
    | succ g =>
      have hb : ((x : ℤ) + (-1) < 0 ∨ (c.img.width : ℤ) ≤ (x : ℤ) + (-1)) := by
        left
        omega
      simp only [traceDirAux, if_pos hb]
  | succ f1 ih =>
    intro f2 x y y2 h1 h2
    cases f2 with
    | zero =>
      have hb : ((x : ℤ) + (-1) < 0 ∨ (c.img.width : ℤ) ≤ (x : ℤ) + (-1)) := by
        left
        omega
      simp only [traceDirAux, if_pos hb]
    | succ g =>
      by_cases hb : ((x : ℤ) + (-1) < 0 ∨ (c.img.width : ℤ) ≤ (x : ℤ) + (-1))
      · simp only [traceDirAux, if_pos hb]
      · have hx1 : 1 ≤ x := by
          rcases not_or.mp hb with ⟨hl, _⟩
          omega
        have hxn : ((x : ℤ) + (-1)).toNat = x - 1 := by omega
        simp only [traceDirAux, if_neg hb, hxn]
        cases hc : chooseNextY
            (findRunsInColumn c.img (x - 1) c.pickedColor c.threshold c.isBL)
            y y2 c.mode c.maxJump with
        | none => rfl
        | some yNext =>
          dsimp only
          rw [ih g (x - 1) yNext (some y) (by omega) (by omega)]

theorem traceDirAux_head (c : TraceCtx) (dir : ℤ) (fuel x : ℕ) (yPrev : ℚ)
    (yPrev2 : Option ℚ) :
    (traceDirAux c dir fuel x yPrev yPrev2).head? = some (x, yPrev) := by
  cases fuel with
  | zero => rfl
  | succ fuel => rfl

theorem traceDirAux_chain (c : TraceCtx) (dir : ℤ) :
    ∀ (fuel x : ℕ) (yPrev : ℚ) (yPrev2 : Option ℚ),
      List.Chain' (fun p q : ℕ × ℚ => (q.1 : ℤ) = (p.1 : ℤ) + dir)
        (traceDirAux c dir fuel x yPrev yPrev2) := by
  intro fuel
  induction fuel with
  | zero =>
    intro x y y2
    simp [traceDirAux]
  | succ fuel ih =>
    intro x y y2
    by_cases hb : ((x : ℤ) + dir < 0 ∨ (c.img.width : ℤ) ≤ (x : ℤ) + dir)
    · simp [traceDirAux, hb]
    · cases hc : chooseNextY
          (findRunsInColumn c.img ((x : ℤ) + dir).toNat c.pickedColor c.threshold c.isBL)
          y y2 c.mode c.maxJump with
      | none =>
        simp [traceDirAux, hb, hc]
      | some yNext =>
        have hrec := ih ((x : ℤ) + dir).toNat yNext (some y)
        have heq : traceDirAux c dir (fuel + 1) x y y2 =
            (x, y) :: traceDirAux c dir fuel ((x : ℤ) + dir).toNat yNext (some y) := by
          simp only [traceDirAux, if_neg hb, hc]
        rw [heq, List.chain'_cons']
        refine ⟨?_, hrec⟩
        intro q hq
        rw [traceDirAux_head] at hq
        obtain rfl : (((x : ℤ) + dir).toNat, yNext) = q := by
          simpa using hq
        have hge : 0 ≤ (x : ℤ) + dir := by
          rcases not_or.mp hb with ⟨h1, _⟩
          exact not_lt.mp h1
        simp [Int.toNat_of_nonneg hge]

theorem merged_chain (c : TraceCtx) (f1 f2 x0 : ℕ) (y0 : ℚ) :
    List.Chain' (fun p q : ℕ × ℚ => p.1 < q.1)
      ((traceDirAux c (-1) f1 x0 y0 none).reverse ++
        (traceDirAux c 1 f2 x0 y0 none).drop 1) := by
  have chainL := traceDirAux_chain c (-1) f1 x0 y0 none
  have chainR := traceDirAux_chain c 1 f2 x0 y0 none
  have hLrev : List.Chain' (fun p q : ℕ × ℚ => p.1 < q.1)
      (traceDirAux c (-1) f1 x0 y0 none).reverse := by
    rw [List.chain'_reverse]
    refine chainL.imp ?_
    intro p q hpq
    show q.1 < p.1
    omega
  rcases hR : traceDirAux c 1 f2 x0 y0 none with _ | ⟨a, rest⟩
  · have := traceDirAux_head c 1 f2 x0 y0 none
    rw [hR] at this
    simp at this
  · have ha : a = (x0, y0) := by
      have hh := traceDirAux_head c 1 f2 x0 y0 none
      rw [hR] at hh
      simpa using hh
    rw [hR] at chainR
    rw [List.chain'_cons'] at chainR
    obtain ⟨hhead, hrest⟩ := chainR
    have hrest' : List.Chain' (fun p q : ℕ × ℚ => p.1 < q.1) rest := by
      refine hrest.imp ?_
      intro p q hpq
      omega
    rw [List.drop_succ_cons, List.drop_zero]
    refine List.Chain'.append hLrev hrest' ?_
    intro p hp q hq
    rw [List.getLast?_reverse, traceDirAux_head] at hp
    obtain rfl : (x0, y0) = p := by simpa using hp
    have hq1 := hhead q hq
    rw [ha] at hq1
    dsimp only at hq1
    show x0 < q.1
    omega

/-- C9: whenever `traceCurveWithSeeds` returns a non-empty result, that
result is the leftward trace reversed into ascending-x order concatenated
with the rightward trace minus its first point (both traces start at the
shared origin, which is therefore dropped exactly once), and the resulting
polyline has strictly increasing x coordinates. -/
theorem trace_monotonic (c : TraceCtx) (seeds : List Pt) :
    (traceCurveWithSeeds c seeds = [] ∨
      ∃ x0 y0,
        traceCurveWithSeeds c seeds =
          (traceDirAux c (-1) c.img.width x0 y0 none).reverse ++
            (traceDirAux c 1 c.img.width x0 y0 none).drop 1 ∧
        (traceDirAux c (-1) c.img.width x0 y0 none).head? = some (x0, y0) ∧
        (traceDirAux c 1 c.img.width x0 y0 none).head? = some (x0, y0)) ∧
    List.Chain' (fun p q : ℕ × ℚ => p.1 < q.1) (traceCurveWithSeeds c seeds) := by
  unfold traceCurveWithSeeds
  split
  · exact ⟨Or.inl rfl, List.chain'_nil⟩
  · split
    · exact ⟨Or.inl rfl, List.chain'_nil⟩
    · split
      · dsimp only
        split
        · exact ⟨Or.inl rfl, List.chain'_nil⟩
        · refine ⟨Or.inr ⟨_, _, rfl, traceDirAux_head c (-1) _ _ _ _,
            traceDirAux_head c 1 _ _ _ _⟩, ?_⟩
          exact merged_chain c c.img.width c.img.width _ _
      · exact ⟨Or.inl rfl, List.chain'_nil⟩

/-- A concrete trace context for the jump-limit witness: a 2-column,
0-row buffer (so the next column holds no runs), black picked color,
threshold 1, centerline mode, `maxJump = 5`, empty blacklist. -/
def wTraceCtx : TraceCtx :=
  ⟨⟨2, 0, fun _ => 0⟩, ⟨0, 0, 0⟩, 1, .centerline, 5, fun _ _ => false⟩

/-- Witness for `choose_next_jump_limit` at concrete inputs: a run within
the jump limit is selected, a run beyond it yields `none`, and a trace
step whose next column has no acceptable run stops at the prior column. -/
theorem choose_next_jump_limit_witness :
    ((∃ r ∈ [(⟨0, 0⟩ : Run)],
        |runRepresentativeY r TraceMode.centerline - predictY 0 none| ≤ 5) ∧
      ∃ y, chooseNextY [⟨0, 0⟩] 0 none TraceMode.centerline 5 = some y ∧
        (∃ r ∈ [(⟨0, 0⟩ : Run)], y = runRepresentativeY r TraceMode.centerline) ∧
        |y - predictY 0 none| ≤ 5 ∧
        ∀ r ∈ [(⟨0, 0⟩ : Run)], |y - predictY 0 none| ≤
          |runRepresentativeY r TraceMode.centerline - predictY 0 none|) ∧
    ((∀ r ∈ [(⟨10, 10⟩ : Run)],
        (5 : ℚ) < |runRepresentativeY r TraceMode.centerline - predictY 0 none|) ∧
      chooseNextY [⟨10, 10⟩] 0 none TraceMode.centerline 5 = none) ∧
    (¬(((0 : ℕ) : ℤ) + 1 < 0 ∨ (wTraceCtx.img.width : ℤ) ≤ ((0 : ℕ) : ℤ) + 1) ∧
      chooseNextY (findRunsInColumn wTraceCtx.img (((0 : ℕ) : ℤ) + 1).toNat
          wTraceCtx.pickedColor wTraceCtx.threshold wTraceCtx.isBL) 0 none
        wTraceCtx.mode wTraceCtx.maxJump = none ∧
      traceDirAux wTraceCtx 1 (0 + 1) 0 0 none = [(0, 0)]) := by
  have hA : ∃ r ∈ [(⟨0, 0⟩ : Run)],
      |runRepresentativeY r TraceMode.centerline - predictY 0 none| ≤ 5 := by
    refine ⟨⟨0, 0⟩, List.mem_singleton.mpr rfl, ?_⟩
    norm_num [runRepresentativeY, predictY]
  have hB : ∀ r ∈ [(⟨10, 10⟩ : Run)],
      (5 : ℚ) < |runRepresentativeY r TraceMode.centerline - predictY 0 none| := by
    intro r hr
    rw [List.mem_singleton] at hr
    subst hr
    norm_num [runRepresentativeY, predictY]
  have hb : ¬(((0 : ℕ) : ℤ) + 1 < 0 ∨ (wTraceCtx.img.width : ℤ) ≤ ((0 : ℕ) : ℤ) + 1) := by
    decide
  have hn : chooseNextY (findRunsInColumn wTraceCtx.img (((0 : ℕ) : ℤ) + 1).toNat
      wTraceCtx.pickedColor wTraceCtx.threshold wTraceCtx.isBL) 0 none
      wTraceCtx.mode wTraceCtx.maxJump = none := rfl
  exact ⟨⟨hA, (choose_next_jump_limit.1 [⟨0, 0⟩] 0 none TraceMode.centerline 5).1 hA⟩,
    ⟨hB, (choose_next_jump_limit.1 [⟨10, 10⟩] 0 none TraceMode.centerline 5).2 hB⟩,
    hb, hn, choose_next_jump_limit.2 wTraceCtx 1 0 0 0 none hb hn⟩

end SpectraDigitizer
